import Mathlib

/-!
Verification of the line-fitting printer queues of `oxc_formatter`
(`crates/oxc_formatter/src/formatter/printer/queue.rs`).

The queue module itself (`PrintQueue`, `FitsQueue`, the generic `Queue` operations,
`QueueContentIterator`, `AllPredicate`, `SingleEntryPredicate`) is translated directly from
the Rust source.  The document element model (`FormatElement`, `Tag`, `TagKind`) and the
layered stack (`StackedStack` in `stack.rs`) live outside the provided sources and are
modelled from the specification, as marked on each definition.
-/

set_option maxHeartbeats 1000000

/-- Modelled from the spec: the `kind` carried by a structural tag
("entry", "group", "indent", ...).  The real enum has more kinds; these suffice to make
kind comparison meaningful. -/
inductive TagKind where
  | Entry
  | Group
  | Indent
  | Fill
  | Align
deriving DecidableEq, Repr

/-- Modelled from the spec: "a structural marker carrying a `kind` ... and a `start`/`end`
role."  `Tag.kind` and `Tag.is_start` correspond to the accessors `tag.kind()` and
`tag.is_start()` used by the queue code. -/
structure Tag where
  kind : TagKind
  is_start : Bool
deriving DecidableEq, Repr

/-- Modelled from the spec: a document element is a plain token (an "opaque printable
fragment" of some width), a forced line break token, a structural tag, or an interned
reference to a shared sub-sequence of elements (`FormatElement::Interned`). -/
inductive FormatElement where
  /-- An opaque printable fragment occupying `width` columns. -/
  | token (width : Nat)
  /-- A forced (hard) line break token. -/
  | lineBreak
  /-- A structural tag. -/
  | tag (t : Tag)
  /-- A reference to a shared sub-sequence of document elements. -/
  | interned (es : List FormatElement)
deriving Repr

/-- Rust `Tag::StartEntry`. -/
def startEntry : FormatElement := .tag ⟨.Entry, true⟩

/-- Rust `Tag::EndEntry`. -/
def endEntry : FormatElement := .tag ⟨.Entry, false⟩

mutual

/-- Size of one element, counting through interned indirection; used as the termination
measure for traversals that expand interned references. -/
def elemSize : FormatElement → Nat
  | .interned es => 1 + listSize es
  | _ => 1

/-- Total size of a list of elements. -/
def listSize : List FormatElement → Nat
  | [] => 0
  | e :: rest => elemSize e + listSize rest

end

theorem elemSize_pos (e : FormatElement) : 1 ≤ elemSize e := by
  cases e <;> simp [elemSize]

theorem listSize_append (a b : List FormatElement) :
    listSize (a ++ b) = listSize a + listSize b := by
  induction a with
  | nil => simp [listSize]
  | cons e rest ih => simp [listSize, ih]; omega

/-- The errors produced by the printer (`invalid_end_tag`, `invalid_start_tag` construct
them in the Rust source); each carries the offending tag kind and, where available, the
element encountered. -/
inductive PrintError where
  | invalidEndTag (kind : TagKind) (element : Option FormatElement)
  | invalidStartTag (kind : TagKind) (element : Option FormatElement)

/-- Rust `PrintResult<T>` from the printer module. -/
def PrintResult (α : Type) : Type := Except PrintError α

/-- Rust `invalid_end_tag(kind, element)`: an error result for an end tag met with no matching
open start tag. -/
def invalid_end_tag {α : Type} (kind : TagKind) (element : Option FormatElement) :
    PrintResult α :=
  .error (.invalidEndTag kind element)

/-- Rust `invalid_start_tag(kind, element)`: an error result for content found where only the
given tag kind was expected. -/
def invalid_start_tag {α : Type} (kind : TagKind) (element : Option FormatElement) :
    PrintResult α :=
  .error (.invalidStartTag kind element)

/-- Result of one `pop` on a queue: the stack was empty (`None` in Rust), the indexing
`&top_slice[next_index]` was out of bounds (a Rust panic, unreachable for well-formed
queues), or an element together with the advanced queue. -/
inductive PopRes (Q : Type) where
  | empty
  | panic
  | elem (e : FormatElement) (q : Q)
deriving Repr

/-- Rust `PrintQueue`: a growable stack of borrowed element slices (`slices`, top of stack at
the head) plus the shared `next_index` cursor into the top slice. -/
structure PrintQueue where
  slices : List (List FormatElement)
  next_index : Nat
deriving Repr

namespace PrintQueue

/-- Rust `PrintQueue::new`: start from the root slice, dropping an empty root. -/
def new (slice : List FormatElement) : PrintQueue :=
  match slice with
  | [] => ⟨[], 0⟩
  | slice => ⟨[slice], 0⟩

/-- Rust `PrintQueue::is_empty`. -/
def is_empty (q : PrintQueue) : Bool :=
  q.slices.isEmpty

/-- Rust `Queue::pop` for the print queue: read `top_slice[next_index]`; if that was the last
element of the top slice, pop the slice and reset the index, otherwise advance the
index. -/
def pop (q : PrintQueue) : PopRes PrintQueue :=
  match q.slices with
  | [] => .empty
  | top :: rest =>
    match top[q.next_index]? with
    | none => .panic
    | some element =>
      if q.next_index + 1 = top.length then
        .elem element ⟨rest, 0⟩
      else
        .elem element ⟨top :: rest, q.next_index + 1⟩

/-- Rust `Queue::top_with_interned`: the next element without resolving interned references
(`None` also stands for the out-of-bounds panic, unreachable for well-formed queues). -/
def top_with_interned (q : PrintQueue) : Option FormatElement :=
  match q.slices with
  | [] => none
  | top :: _ => top[q.next_index]?

/-- The `while let Some(FormatElement::Interned(interned)) = top { top = interned.first() }`
loop of `Queue::top`, as a loop on the current candidate. -/
def resolveTop : Option FormatElement → Option FormatElement
  | some (.interned interned) => resolveTop interned.head?
  | t => t
termination_by o => (match o with | none => 0 | some e => elemSize e)
decreasing_by
  cases interned with
  | nil => simp [elemSize]
  | cons e r =>
    simp only [List.head?, elemSize, listSize]
    have := elemSize_pos e
    omega

/-- Rust `Queue::top`: the next element, recursively resolving the first element of interned
references. -/
def top (q : PrintQueue) : Option FormatElement :=
  resolveTop q.top_with_interned

/-- Rust `Queue::extend_back`: don't push empty slices; otherwise split the top slice at the
cursor, re-push the remainder, push the new slice on top and reset the index. -/
def extend_back (q : PrintQueue) (elements : List FormatElement) : PrintQueue :=
  match elements with
  | [] => q
  | slice =>
    match q.slices with
    | [] => ⟨[slice], 0⟩
    | top :: rest => ⟨slice :: top.drop q.next_index :: rest, 0⟩

/-- Rust `Queue::push`: queue a single element to process next. -/
def push (q : PrintQueue) (element : FormatElement) : PrintQueue :=
  q.extend_back [element]

/-- Rust `Queue::pop_slice`: reset the index and remove the top slice wholesale. -/
def pop_slice (q : PrintQueue) : Option (List FormatElement) × PrintQueue :=
  match q.slices with
  | [] => (none, ⟨[], 0⟩)
  | top :: rest => (some top, ⟨rest, 0⟩)

/-- The sequence of elements remaining in the queue, raw (interned references not
expanded): the unconsumed part of the top slice followed by the deeper slices. -/
def toList (q : PrintQueue) : List FormatElement :=
  match q.slices with
  | [] => []
  | top :: rest => top.drop q.next_index ++ rest.flatten

/-- Well-formedness: every stored slice is non-empty and, when the stack is non-empty,
the shared cursor lies strictly inside the top slice (no frame has remaining length
zero). -/
def WF (q : PrintQueue) : Prop :=
  (∀ s ∈ q.slices, s ≠ []) ∧
  (∀ top rest, q.slices = top :: rest → q.next_index < top.length)

end PrintQueue

/-- Modelled from the spec: the layered stack overlay of `stack.rs` (not among the
provided sources).  "A snapshot of an existing stack's frames at a point in time
(read-only, shared, never mutated) plus a private sequence of additional frames pushed
afterward.  Lookups check the private sequence first, then fall through to the shared
snapshot."  `original` is the still-visible portion of the shared snapshot (a view that
only shrinks as frames are consumed past the private portion; the shared storage itself
is never written), `stack` is the private overlay; in both lists the head is the top. -/
structure StackedStack where
  original : List (List FormatElement)
  stack : List (List FormatElement)
deriving Repr

namespace StackedStack

/-- Modelled from the spec: the top visible frame — the private frames first, then the
shared snapshot beneath. -/
def top (s : StackedStack) : Option (List FormatElement) :=
  match s.stack with
  | f :: _ => some f
  | [] => s.original.head?

/-- Modelled from the spec: pop the top visible frame; a pop that reaches past the
private frames shrinks this view's window onto the shared snapshot without mutating the
snapshot itself. -/
def pop (s : StackedStack) : Option (List FormatElement) × StackedStack :=
  match s.stack with
  | f :: rest => (some f, ⟨s.original, rest⟩)
  | [] =>
    match s.original with
    | f :: rest => (some f, ⟨rest, []⟩)
    | [] => (none, ⟨[], []⟩)

/-- Modelled from the spec: pushes only ever touch the private frames. -/
def push (s : StackedStack) (frame : List FormatElement) : StackedStack :=
  ⟨s.original, frame :: s.stack⟩

/-- The full visible frame sequence, private-over-shared. -/
def frames (s : StackedStack) : List (List FormatElement) :=
  s.stack ++ s.original

theorem top_frames (s : StackedStack) : s.top = s.frames.head? := by
  cases h : s.stack with
  | nil => simp [top, frames, h]
  | cons f rest => simp [top, frames, h]

theorem pop_frames (s : StackedStack) :
    (s.pop).1 = s.frames.head? ∧ (s.pop).2.frames = s.frames.tail := by
  cases h : s.stack with
  | nil =>
    cases h2 : s.original with
    | nil => simp [pop, frames, h, h2]
    | cons f rest => simp [pop, frames, h, h2]
  | cons f rest => simp [pop, frames, h]

theorem push_frames (s : StackedStack) (f : List FormatElement) :
    (s.push f).frames = f :: s.frames := by
  simp [push, frames]

end StackedStack

/-- Rust `FitsQueue`: a speculative view used for fit measurement, a `StackedStack` over the
print queue's slices plus its own copy of the shared cursor. -/
structure FitsQueue where
  stack : StackedStack
  next_index : Nat
deriving Repr

namespace FitsQueue

/-- Rust `FitsQueue::new`: snapshot the print queue's slices as the shared layer, seed the
private layer with `saved` frames, and start from the print queue's cursor. -/
def new (print_queue : PrintQueue) (saved : List (List FormatElement)) : FitsQueue :=
  ⟨⟨print_queue.slices, saved⟩, print_queue.next_index⟩

/-- Modelled from the spec: `FitsQueue::finish` disassembles the queue "back into its
full list of frames (private-over-shared)". -/
def finish (q : FitsQueue) : List (List FormatElement) :=
  q.stack.frames

/-- Rust `Queue::pop` instantiated at the fits queue. -/
def pop (q : FitsQueue) : PopRes FitsQueue :=
  match q.stack.top with
  | none => .empty
  | some top_slice =>
    match top_slice[q.next_index]? with
    | none => .panic
    | some element =>
      if q.next_index + 1 = top_slice.length then
        .elem element ⟨(q.stack.pop).2, 0⟩
      else
        .elem element ⟨q.stack, q.next_index + 1⟩

/-- Rust `Queue::top_with_interned` instantiated at the fits queue. -/
def top_with_interned (q : FitsQueue) : Option FormatElement :=
  match q.stack.top with
  | none => none
  | some top_slice => top_slice[q.next_index]?

/-- Rust `Queue::top` instantiated at the fits queue. -/
def top (q : FitsQueue) : Option FormatElement :=
  PrintQueue.resolveTop q.top_with_interned

/-- Rust `Queue::extend_back` instantiated at the fits queue. -/
def extend_back (q : FitsQueue) (elements : List FormatElement) : FitsQueue :=
  match elements with
  | [] => q
  | slice =>
    let popped := q.stack.pop
    let stack1 :=
      match popped.1 with
      | some top => popped.2.push (top.drop q.next_index)
      | none => popped.2
    ⟨stack1.push slice, 0⟩

/-- Rust `Queue::push` instantiated at the fits queue. -/
def push (q : FitsQueue) (element : FormatElement) : FitsQueue :=
  q.extend_back [element]

/-- Rust `Queue::pop_slice` instantiated at the fits queue. -/
def pop_slice (q : FitsQueue) : Option (List FormatElement) × FitsQueue :=
  ((q.stack.pop).1, ⟨(q.stack.pop).2, 0⟩)

/-- The print-queue view of a fits queue: its visible frames (private-over-shared) and
its cursor. -/
def toCore (q : FitsQueue) : PrintQueue :=
  ⟨q.stack.frames, q.next_index⟩

theorem toCore_pop (q : FitsQueue) :
    q.toCore.pop = match q.pop with
      | .empty => .empty
      | .panic => .panic
      | .elem e q' => .elem e q'.toCore := by
  cases hs : q.stack.stack with
  | nil =>
    cases ho : q.stack.original with
    | nil =>
      simp [toCore, PrintQueue.pop, pop, StackedStack.frames, StackedStack.top,
        StackedStack.pop, hs, ho]
    | cons f rest =>
      simp only [toCore, PrintQueue.pop, pop, StackedStack.frames, StackedStack.top,
        StackedStack.pop, hs, ho, List.nil_append, List.head?]
      cases hixf : f[q.next_index]? with
      | none => simp
      | some e =>
        simp only
        split <;> simp [StackedStack.frames, hs, ho]
  | cons f rest =>
    simp only [toCore, PrintQueue.pop, pop, StackedStack.frames, StackedStack.top,
      StackedStack.pop, hs, List.cons_append]
    cases hixf : f[q.next_index]? with
    | none => simp
    | some e =>
      simp only
      split <;> simp [StackedStack.frames, hs]

theorem toCore_extend_back (q : FitsQueue) (elements : List FormatElement) :
    (q.extend_back elements).toCore = q.toCore.extend_back elements := by
  cases he : elements with
  | nil => simp [extend_back, PrintQueue.extend_back]
  | cons x xs =>
    cases hs : q.stack.stack with
    | nil =>
      cases ho : q.stack.original with
      | nil =>
        simp [toCore, extend_back, PrintQueue.extend_back, StackedStack.frames,
          StackedStack.pop, StackedStack.push, hs, ho]
      | cons f rest =>
        simp [toCore, extend_back, PrintQueue.extend_back, StackedStack.frames,
          StackedStack.pop, StackedStack.push, hs, ho]
    | cons f rest =>
      simp [toCore, extend_back, PrintQueue.extend_back, StackedStack.frames,
        StackedStack.pop, StackedStack.push, hs]

theorem toCore_pop_slice (q : FitsQueue) :
    (q.pop_slice).1 = (q.toCore.pop_slice).1 ∧
      (q.pop_slice).2.toCore = (q.toCore.pop_slice).2 := by
  cases hs : q.stack.stack with
  | nil =>
    cases ho : q.stack.original with
    | nil =>
      simp [toCore, pop_slice, PrintQueue.pop_slice, StackedStack.frames,
        StackedStack.pop, hs, ho]
    | cons f rest =>
      simp [toCore, pop_slice, PrintQueue.pop_slice, StackedStack.frames,
        StackedStack.pop, hs, ho]
  | cons f rest =>
    simp [toCore, pop_slice, PrintQueue.pop_slice, StackedStack.frames,
      StackedStack.pop, hs]

end FitsQueue

theorem PrintQueue.pop_elem_toList {q : PrintQueue} {e : FormatElement} {q' : PrintQueue}
    (h : q.pop = .elem e q') : q.toList = e :: q'.toList := by
  cases hs : q.slices with
  | nil => simp [PrintQueue.pop, hs] at h
  | cons top rest =>
    simp only [PrintQueue.pop, hs] at h
    cases hg : top[q.next_index]? with
    | none => simp [hg] at h
    | some el =>
      simp only [hg] at h
      have hlt : q.next_index < top.length := by
        by_contra hcon
        rw [List.getElem?_eq_none (by omega)] at hg
        cases hg
      have hel : top[q.next_index] = el := by
        rw [List.getElem?_eq_getElem hlt] at hg
        injection hg
      have hdrop : top.drop q.next_index = el :: top.drop (q.next_index + 1) := by
        rw [List.drop_eq_getElem_cons hlt, hel]
      split at h
      case isTrue hlen =>
        injection h with h1 h2
        subst h1
        rw [← h2]
        simp only [PrintQueue.toList, hs, hdrop]
        rw [hlen, List.drop_length]
        cases rest with
        | nil => simp
        | cons r rs => simp
      case isFalse hlen =>
        injection h with h1 h2
        subst h1
        rw [← h2]
        simp [PrintQueue.toList, hs, hdrop]

theorem PrintQueue.pop_empty_iff {q : PrintQueue} : q.pop = .empty ↔ q.slices = [] := by
  constructor
  · intro h
    cases hs : q.slices with
    | nil => rfl
    | cons top rest =>
      simp only [PrintQueue.pop, hs] at h
      cases hg : top[q.next_index]? with
      | none => simp [hg] at h
      | some el =>
        simp only [hg] at h
        split at h <;> exact absurd h (by simp)
  · intro h
    simp [PrintQueue.pop, h]

theorem PrintQueue.toList_extend_back (q : PrintQueue) (es : List FormatElement) :
    (q.extend_back es).toList = es ++ q.toList := by
  cases he : es with
  | nil => simp [PrintQueue.extend_back]
  | cons x xs =>
    cases hs : q.slices with
    | nil => simp [PrintQueue.extend_back, PrintQueue.toList, hs]
    | cons top rest => simp [PrintQueue.extend_back, PrintQueue.toList, hs]

/-- The shared queue contract of `Queue<'a>`: both concrete queues supply `pop` and
`extend_back`, together with a size measure that `pop` strictly decreases and
`extend_back` grows by exactly the added elements (used for termination of the
interned-expanding traversals). -/
class QueueOps (Q : Type) where
  pop : Q → PopRes Q
  extend_back : Q → List FormatElement → Q
  size : Q → Nat
  pop_size : ∀ {q : Q} {e : FormatElement} {q' : Q},
    pop q = .elem e q' → size q' + elemSize e = size q
  extend_size : ∀ (q : Q) (es : List FormatElement),
    size (extend_back q es) = listSize es + size q

instance : QueueOps PrintQueue where
  pop := PrintQueue.pop
  extend_back := PrintQueue.extend_back
  size q := listSize q.toList
  pop_size {q e q'} h := by
    show listSize q'.toList + elemSize e = listSize q.toList
    rw [PrintQueue.pop_elem_toList h]
    simp [listSize]
    omega
  extend_size q es := by
    show listSize (q.extend_back es).toList = listSize es + listSize q.toList
    rw [PrintQueue.toList_extend_back, listSize_append]

instance : QueueOps FitsQueue where
  pop := FitsQueue.pop
  extend_back := FitsQueue.extend_back
  size q := listSize q.toCore.toList
  pop_size {q e q'} h := by
    show listSize q'.toCore.toList + elemSize e = listSize q.toCore.toList
    have h2 := FitsQueue.toCore_pop q
    rw [h] at h2
    rw [PrintQueue.pop_elem_toList h2]
    simp [listSize]
    omega
  extend_size q es := by
    show listSize (q.extend_back es).toCore.toList = listSize es + listSize q.toCore.toList
    rw [FitsQueue.toCore_extend_back, PrintQueue.toList_extend_back, listSize_append]

/-- The interned-expansion loop appearing in `QueueContentIterator::next`: pop, and while
the popped element is an interned reference, `extend_back` its contents and retry the
pop. -/
def popResolving {Q : Type} [QueueOps Q] (q : Q) : PopRes Q :=
  match h : QueueOps.pop q with
  | .empty => .empty
  | .panic => .panic
  | .elem (.interned es) q' => popResolving (QueueOps.extend_back q' es)
  | .elem e q' => .elem e q'
termination_by QueueOps.size q
decreasing_by
  have h1 := QueueOps.pop_size h
  have h2 := QueueOps.extend_size q' es
  simp only [elemSize] at h1
  omega

theorem popResolving_step {Q : Type} [QueueOps Q] (q : Q) :
    popResolving q = match QueueOps.pop q with
      | .empty => .empty
      | .panic => .panic
      | .elem (.interned es) q' => popResolving (QueueOps.extend_back q' es)
      | .elem e q' => .elem e q' := by
  rw [popResolving]
  split
  · rename_i heq; rw [heq]
  · rename_i heq; rw [heq]
  · rename_i heq; rw [heq]
  · rename_i hne heq
    rw [heq]
    rename_i e q'
    cases e with
    | interned es => exact absurd rfl (hne es)
    | token w => rfl
    | lineBreak => rfl
    | tag t => rfl

theorem popResolving_elem_size_aux {Q : Type} [QueueOps Q] :
    ∀ (n : Nat) (q : Q), QueueOps.size q ≤ n → ∀ (e : FormatElement) (q' : Q),
      popResolving q = .elem e q' → QueueOps.size q' < QueueOps.size q := by
  intro n
  induction n with
  | zero =>
    intro q hn e q' h
    rw [popResolving_step] at h
    cases hp : QueueOps.pop q with
    | empty => simp [hp] at h
    | panic => simp [hp] at h
    | elem e2 q2 =>
      have h1 := QueueOps.pop_size hp
      have h2 := elemSize_pos e2
      omega
  | succ n ih =>
    intro q hn e q' h
    rw [popResolving_step] at h
    cases hp : QueueOps.pop q with
    | empty => simp [hp] at h
    | panic => simp [hp] at h
    | elem e2 q2 =>
      have h1 := QueueOps.pop_size hp
      cases e2 with
      | interned es =>
        simp only [hp] at h
        have h2 := QueueOps.extend_size q2 es
        simp only [elemSize] at h1
        have h3 := ih (QueueOps.extend_back q2 es) (by omega) e q' h
        omega
      | token w =>
        simp only [hp] at h
        injection h with h4 h5
        subst h5
        simp only [elemSize] at h1
        omega
      | lineBreak =>
        simp only [hp] at h
        injection h with h4 h5
        subst h5
        simp only [elemSize] at h1
        omega
      | tag t =>
        simp only [hp] at h
        injection h with h4 h5
        subst h5
        simp only [elemSize] at h1
        omega

theorem popResolving_elem_size {Q : Type} [QueueOps Q] {q : Q} {e : FormatElement}
    {q' : Q} (h : popResolving q = .elem e q') : QueueOps.size q' < QueueOps.size q :=
  popResolving_elem_size_aux (QueueOps.size q) q (Nat.le_refl _) e q' h

/-- Rust `QueueContentIterator`: the lazy walk over all elements up to the matching end tag of
`kind`. -/
structure QueueContentIterator (Q : Type) where
  queue : Q
  kind : TagKind
  depth : Nat

/-- Rust `QueueContentIterator::new`: starts already inside one open instance, `depth: 1`. -/
def QueueContentIterator.new {Q : Type} (queue : Q) (kind : TagKind) :
    QueueContentIterator Q :=
  ⟨queue, kind, 1⟩

/-- Result of one `Iterator::next` call on the content iterator: the iterator yielded
`None` (its state retained), yielded an element, or the underlying `expect`/indexing
panicked. -/
inductive IterNextRes (Q : Type) where
  | done (it : QueueContentIterator Q)
  | yield (e : FormatElement) (it : QueueContentIterator Q)
  | panicked (msg : String)

/-- Rust `QueueContentIterator::next`, translated from the source: `None` when depth is zero;
otherwise pop (expanding interned references), panic with "Missing end signal." on
exhaustion; a tag of the target kind adjusts the depth, ending without a yield when depth
reaches zero; everything else is yielded unchanged. -/
def QueueContentIterator.next {Q : Type} [QueueOps Q] (it : QueueContentIterator Q) :
    IterNextRes Q :=
  if it.depth = 0 then .done it
  else
    match popResolving it.queue with
    | .empty => .panicked "Missing end signal."
    | .panic => .panicked "index out of bounds"
    | .elem e q' =>
      match e with
      | .tag t =>
        if t.kind = it.kind then
          if t.is_start then .yield (.tag t) ⟨q', it.kind, it.depth + 1⟩
          else if it.depth - 1 = 0 then .done ⟨q', it.kind, it.depth - 1⟩
          else .yield (.tag t) ⟨q', it.kind, it.depth - 1⟩
        else .yield (.tag t) ⟨q', it.kind, it.depth⟩
      | .token w => .yield (.token w) ⟨q', it.kind, it.depth⟩
      | .lineBreak => .yield .lineBreak ⟨q', it.kind, it.depth⟩
      | .interned es => .yield (.interned es) ⟨q', it.kind, it.depth⟩

theorem next_yield_size {Q : Type} [QueueOps Q] {it it' : QueueContentIterator Q}
    {e : FormatElement} (h : it.next = .yield e it') :
    QueueOps.size it'.queue < QueueOps.size it.queue := by
  unfold QueueContentIterator.next at h
  split at h
  · cases h
  · cases hp : popResolving it.queue with
    | empty => simp [hp] at h
    | panic => simp [hp] at h
    | elem e2 q2 =>
      have hsz := popResolving_elem_size hp
      simp only [hp] at h
      split at h
      · split at h
        · split at h
          · injection h with h1 h2; rw [← h2]; exact hsz
          · split at h
            · cases h
            · injection h with h1 h2; rw [← h2]; exact hsz
        · injection h with h1 h2; rw [← h2]; exact hsz
      · injection h with h1 h2; rw [← h2]; exact hsz
      · injection h with h1 h2; rw [← h2]; exact hsz
      · injection h with h1 h2; rw [← h2]; exact hsz

/-- Outcome of driving a content iterator to completion. -/
inductive IterEnd where
  | ended
  | panicked (msg : String)
deriving Repr, DecidableEq

/-- Drive a content iterator to completion, collecting the yielded elements, the way it
ended, and the final queue state. -/
def iterAll {Q : Type} [QueueOps Q] (it : QueueContentIterator Q) :
    List FormatElement × IterEnd × Q :=
  match h : it.next with
  | .done it' => ([], .ended, it'.queue)
  | .panicked msg => ([], .panicked msg, it.queue)
  | .yield e it' =>
    let r := iterAll it'
    (e :: r.1, r.2.1, r.2.2)
termination_by QueueOps.size it.queue
decreasing_by exact next_yield_size h

theorem iterAll_step {Q : Type} [QueueOps Q] (it : QueueContentIterator Q) :
    iterAll it = match it.next with
      | .done it' => ([], .ended, it'.queue)
      | .panicked msg => ([], .panicked msg, it.queue)
      | .yield e it' =>
        let r := iterAll it'
        (e :: r.1, r.2.1, r.2.2) := by
  rw [iterAll]
  split <;> (rename_i heq; rw [heq])

/-- Rust `Queue::iter_content`: make the iterator over the content of `kind`. -/
def iter_content {Q : Type} (q : Q) (kind : TagKind) : QueueContentIterator Q :=
  QueueContentIterator.new q kind

/-- Rust `Queue::skip_content`: consume the whole content iterator, discarding its
elements. -/
def skip_content {Q : Type} [QueueOps Q] (q : Q) (kind : TagKind) : Q :=
  (iterAll (iter_content q kind)).2.2

/-- Repeatedly `pop` the print queue to exhaustion: the sequence of raw popped elements
and whether an out-of-bounds panic occurred. -/
def PrintQueue.popAll (q : PrintQueue) : List FormatElement × Bool :=
  match h : q.pop with
  | .empty => ([], false)
  | .panic => ([], true)
  | .elem e q' =>
    let r := q'.popAll
    (e :: r.1, r.2)
termination_by q.toList.length
decreasing_by
  have h2 := PrintQueue.pop_elem_toList h
  simp [h2]

theorem PrintQueue.popAll_step (q : PrintQueue) :
    q.popAll = match q.pop with
      | .empty => ([], false)
      | .panic => ([], true)
      | .elem e q' =>
        let r := q'.popAll
        (e :: r.1, r.2) := by
  rw [PrintQueue.popAll]
  split <;> (rename_i heq; rw [heq])

/-- Repeatedly pop with interned expansion, to exhaustion: the fully resolved element
stream and whether a panic occurred. -/
def popAllResolving {Q : Type} [QueueOps Q] (q : Q) : List FormatElement × Bool :=
  match h : popResolving q with
  | .empty => ([], false)
  | .panic => ([], true)
  | .elem e q' =>
    let r := popAllResolving q'
    (e :: r.1, r.2)
termination_by QueueOps.size q
decreasing_by exact popResolving_elem_size h

theorem popAllResolving_step {Q : Type} [QueueOps Q] (q : Q) :
    popAllResolving q = match popResolving q with
      | .empty => ([], false)
      | .panic => ([], true)
      | .elem e q' =>
        let r := popAllResolving q'
        (e :: r.1, r.2) := by
  rw [popAllResolving]
  split <;> (rename_i heq; rw [heq])

/-- Rust `AllPredicate`: includes all elements until the end of the document. -/
inductive AllPredicate where
  | mk

/-- Rust `AllPredicate::is_end`: never signals the end. -/
def AllPredicate.is_end (_self : AllPredicate) (_element : FormatElement) :
    PrintResult (Bool × AllPredicate) :=
  .ok (false, .mk)

/-- Rust `SingleEntryPredicate`: takes all elements between two matching `StartEntry` and
`EndEntry` tags. -/
inductive SingleEntryPredicate where
  | Entry (depth : Nat)
  | Done
deriving Repr, DecidableEq

/-- Rust `SingleEntryPredicate::is_done`. -/
def SingleEntryPredicate.is_done : SingleEntryPredicate → Bool
  | .Done => true
  | _ => false

/-- Rust `Default for SingleEntryPredicate`: `Entry { depth: 0 }`. -/
def SingleEntryPredicate.default : SingleEntryPredicate :=
  .Entry 0

/-- Rust `SingleEntryPredicate::is_end`, translated from the source; the `&mut self` update is
returned as the second component. -/
def SingleEntryPredicate.is_end (self : SingleEntryPredicate) (element : FormatElement) :
    PrintResult (Bool × SingleEntryPredicate) :=
  match self with
  | .Done => .ok (true, .Done)
  | .Entry depth =>
    match element with
    | .tag ⟨.Entry, true⟩ => .ok (false, .Entry (depth + 1))
    | .tag ⟨.Entry, false⟩ =>
      if depth = 0 then invalid_end_tag .Entry none
      else
        let depth1 := depth - 1
        if depth1 = 0 then .ok (true, .Done)
        else .ok (false, .Entry depth1)
    | .interned _ => .ok (false, .Entry depth)
    | element =>
      if depth = 0 then invalid_start_tag .Entry (some element)
      else .ok (false, .Entry depth)

/-- Feed a list of elements to `SingleEntryPredicate::is_end` in order, collecting the
returned booleans and the final predicate state. -/
def runIsEnd (p : SingleEntryPredicate) :
    List FormatElement → PrintResult (List Bool × SingleEntryPredicate)
  | [] => .ok ([], p)
  | e :: rest =>
    match p.is_end e with
    | .error err => .error err
    | .ok (b, p') =>
      match runIsEnd p' rest with
      | .error err => .error err
      | .ok (bs, pf) => .ok (b :: bs, pf)

/-- Recursively inline every interned reference in an element sequence: the fully
resolved element stream a transparent traversal observes. -/
def flattenList : List FormatElement → List FormatElement
  | [] => []
  | .interned es :: rest => flattenList es ++ flattenList rest
  | e :: rest => e :: flattenList rest
termination_by l => listSize l
decreasing_by
  · simp only [listSize, elemSize]
    omega
  · simp only [listSize, elemSize]
    omega
  · simp only [listSize]
    have := elemSize_pos e
    omega

theorem flattenList_nil : flattenList [] = [] := by
  rw [flattenList]

theorem flattenList_cons_interned (es rest : List FormatElement) :
    flattenList (.interned es :: rest) = flattenList es ++ flattenList rest := by
  rw [flattenList]

theorem flattenList_cons_token (w : Nat) (rest : List FormatElement) :
    flattenList (.token w :: rest) = .token w :: flattenList rest := by
  rw [flattenList]
  all_goals simp

theorem flattenList_cons_lineBreak (rest : List FormatElement) :
    flattenList (.lineBreak :: rest) = .lineBreak :: flattenList rest := by
  rw [flattenList]
  all_goals simp

theorem flattenList_cons_tag (t : Tag) (rest : List FormatElement) :
    flattenList (.tag t :: rest) = .tag t :: flattenList rest := by
  rw [flattenList]
  all_goals simp

theorem flattenList_append (a b : List FormatElement) :
    flattenList (a ++ b) = flattenList a ++ flattenList b := by
  induction a with
  | nil => simp [flattenList_nil]
  | cons e rest ih =>
    cases e with
    | interned es =>
      rw [List.cons_append, flattenList_cons_interned, flattenList_cons_interned, ih,
        List.append_assoc]
    | token w => rw [List.cons_append, flattenList_cons_token, flattenList_cons_token, ih,
        List.cons_append]
    | lineBreak => rw [List.cons_append, flattenList_cons_lineBreak,
        flattenList_cons_lineBreak, ih, List.cons_append]
    | tag t => rw [List.cons_append, flattenList_cons_tag, flattenList_cons_tag, ih,
        List.cons_append]

namespace PrintQueue

theorem WF_new (slice : List FormatElement) : (PrintQueue.new slice).WF := by
  cases slice with
  | nil =>
    constructor
    · intro s hs; simp [PrintQueue.new] at hs
    · intro top rest h; simp [PrintQueue.new] at h
  | cons x xs =>
    constructor
    · intro s hs
      simp [PrintQueue.new] at hs
      simp [hs]
    · intro top rest h
      simp [PrintQueue.new] at h
      simp [PrintQueue.new, ← h.1]

theorem WF_pop {q : PrintQueue} {e : FormatElement} {q' : PrintQueue} (hwf : q.WF)
    (h : q.pop = .elem e q') : q'.WF := by
  cases hs : q.slices with
  | nil => simp [PrintQueue.pop, hs] at h
  | cons top rest =>
    simp only [PrintQueue.pop, hs] at h
    cases hg : top[q.next_index]? with
    | none => simp [hg] at h
    | some el =>
      simp only [hg] at h
      split at h
      case isTrue hlen =>
        injection h with h1 h2
        subst h2
        constructor
        · intro s hmem
          have hmem' : s ∈ rest := hmem
          exact hwf.1 s (by rw [hs]; exact List.mem_cons_of_mem _ hmem')
        · intro t r hr
          have hr' : rest = t :: r := hr
          have hne : t ≠ [] := hwf.1 t (by rw [hs, hr']; simp)
          show 0 < t.length
          simpa using List.length_pos.mpr hne
      case isFalse hlen =>
        injection h with h1 h2
        subst h2
        constructor
        · intro s hmem
          have hmem' : s ∈ top :: rest := hmem
          exact hwf.1 s (by rw [hs]; exact hmem')
        · intro t r hr
          have hr' : top :: rest = t :: r := hr
          injection hr' with hr1 hr2
          have hlt : q.next_index < top.length := by
            by_contra hcon
            rw [List.getElem?_eq_none (by omega)] at hg
            cases hg
          show q.next_index + 1 < t.length
          rw [← hr1]
          omega

theorem WF_extend_back {q : PrintQueue} (hwf : q.WF) (es : List FormatElement) :
    (q.extend_back es).WF := by
  cases he : es with
  | nil => simpa [PrintQueue.extend_back] using hwf
  | cons x xs =>
    cases hs : q.slices with
    | nil =>
      have hq : q.extend_back (x :: xs) = ⟨[x :: xs], 0⟩ := by
        simp [PrintQueue.extend_back, hs]
      rw [hq]
      constructor
      · intro s hmem
        have hmem' : s ∈ [x :: xs] := hmem
        simp at hmem'
        simp [hmem']
      · intro top rest h
        have h' : [x :: xs] = top :: rest := h
        injection h' with h1 h2
        show 0 < top.length
        rw [← h1]
        simp
    | cons top rest =>
      have hlt : q.next_index < top.length := hwf.2 top rest hs
      have hq : q.extend_back (x :: xs) =
          ⟨(x :: xs) :: top.drop q.next_index :: rest, 0⟩ := by
        simp [PrintQueue.extend_back, hs]
      rw [hq]
      constructor
      · intro s hmem
        have hmem' : s ∈ (x :: xs) :: top.drop q.next_index :: rest := hmem
        simp only [List.mem_cons] at hmem'
        rcases hmem' with h1 | h2 | h3
        · simp [h1]
        · rw [h2]
          intro hemp
          have hlen : (top.drop q.next_index).length = 0 := by rw [hemp]; rfl
          rw [List.length_drop] at hlen
          omega
        · exact hwf.1 s (by rw [hs]; exact List.mem_cons_of_mem _ h3)
      · intro t r h
        have h' : (x :: xs) :: top.drop q.next_index :: rest = t :: r := h
        injection h' with h1 h2
        show 0 < t.length
        rw [← h1]
        simp

theorem WF_push {q : PrintQueue} (hwf : q.WF) (e : FormatElement) : (q.push e).WF :=
  WF_extend_back hwf [e]

theorem WF_pop_slice {q : PrintQueue} (hwf : q.WF) : (q.pop_slice).2.WF := by
  cases hs : q.slices with
  | nil =>
    have hq : q.pop_slice = (none, ⟨[], 0⟩) := by simp [PrintQueue.pop_slice, hs]
    rw [hq]
    constructor
    · intro s hmem
      have hmem' : s ∈ ([] : List (List FormatElement)) := hmem
      simp at hmem'
    · intro top rest h
      have h' : ([] : List (List FormatElement)) = top :: rest := h
      cases h'
  | cons top rest =>
    have hq : q.pop_slice = (some top, ⟨rest, 0⟩) := by simp [PrintQueue.pop_slice, hs]
    rw [hq]
    constructor
    · intro s hmem
      have hmem' : s ∈ rest := hmem
      exact hwf.1 s (by rw [hs]; exact List.mem_cons_of_mem _ hmem')
    · intro t r h
      have h' : rest = t :: r := h
      have hne : t ≠ [] := hwf.1 t (by rw [hs, h']; simp)
      show 0 < t.length
      simpa using List.length_pos.mpr hne

theorem pop_not_panic {q : PrintQueue} (hwf : q.WF) : q.pop ≠ .panic := by
  cases hs : q.slices with
  | nil => simp [PrintQueue.pop, hs]
  | cons top rest =>
    have hlt : q.next_index < top.length := hwf.2 top rest hs
    simp only [PrintQueue.pop, hs, List.getElem?_eq_getElem hlt]
    split <;> simp

end PrintQueue

/-- The print-queue states reachable through the public operations: construction from a
root slice, `pop`, `push`, `extend_back` and `pop_slice`. -/
inductive Reachable : PrintQueue → Prop where
  | new (slice : List FormatElement) : Reachable (PrintQueue.new slice)
  | pop {q : PrintQueue} {e : FormatElement} {q' : PrintQueue} :
      Reachable q → q.pop = .elem e q' → Reachable q'
  | push {q : PrintQueue} (e : FormatElement) : Reachable q → Reachable (q.push e)
  | extend_back {q : PrintQueue} (es : List FormatElement) :
      Reachable q → Reachable (q.extend_back es)
  | pop_slice {q : PrintQueue} : Reachable q → Reachable (q.pop_slice).2

theorem Reachable.wf {q : PrintQueue} (h : Reachable q) : q.WF := by
  induction h with
  | new slice => exact PrintQueue.WF_new slice
  | pop _ hpop ih => exact PrintQueue.WF_pop ih hpop
  | push e _ ih => exact PrintQueue.WF_push ih e
  | extend_back es _ ih => exact PrintQueue.WF_extend_back ih es
  | pop_slice _ ih => exact PrintQueue.WF_pop_slice ih

theorem PrintQueue.toList_new (slice : List FormatElement) :
    (PrintQueue.new slice).toList = slice := by
  cases slice <;> simp [PrintQueue.new, PrintQueue.toList]

theorem instPop_eq (q : PrintQueue) : QueueOps.pop q = q.pop := rfl

theorem instExtend_eq (q : PrintQueue) (es : List FormatElement) :
    QueueOps.extend_back q es = q.extend_back es := rfl

theorem instSize_eq (q : PrintQueue) : QueueOps.size q = listSize q.toList := rfl

theorem PrintQueue.popAll_eq_toList_aux :
    ∀ (n : Nat) (q : PrintQueue), q.toList.length ≤ n → q.WF →
      q.popAll = (q.toList, false) := by
  intro n
  induction n with
  | zero =>
    intro q hn hwf
    rw [PrintQueue.popAll_step]
    cases hp : q.pop with
    | empty =>
      rw [PrintQueue.pop_empty_iff] at hp
      simp [PrintQueue.toList, hp]
    | panic => exact absurd hp (PrintQueue.pop_not_panic hwf)
    | elem e q' =>
      have htl := PrintQueue.pop_elem_toList hp
      rw [htl] at hn
      simp at hn
  | succ n ih =>
    intro q hn hwf
    rw [PrintQueue.popAll_step]
    cases hp : q.pop with
    | empty =>
      rw [PrintQueue.pop_empty_iff] at hp
      simp [PrintQueue.toList, hp]
    | panic => exact absurd hp (PrintQueue.pop_not_panic hwf)
    | elem e q' =>
      have htl := PrintQueue.pop_elem_toList hp
      have hwf' := PrintQueue.WF_pop hwf hp
      have hlen : q'.toList.length ≤ n := by
        rw [htl] at hn
        simp at hn
        omega
      simp only [ih q' hlen hwf']
      rw [htl]

theorem PrintQueue.popAll_eq_toList {q : PrintQueue} (hwf : q.WF) :
    q.popAll = (q.toList, false) :=
  PrintQueue.popAll_eq_toList_aux q.toList.length q (Nat.le_refl _) hwf

theorem popResolving_flatten_aux :
    ∀ (n : Nat) (q : PrintQueue), listSize q.toList ≤ n → q.WF →
      (popResolving q = .empty ∧ flattenList q.toList = []) ∨
      (∃ e q', popResolving q = .elem e q' ∧ q'.WF ∧
        flattenList q.toList = e :: flattenList q'.toList) := by
  intro n
  induction n using Nat.strong_induction_on with
  | _ n ih =>
    intro q hn hwf
    rw [popResolving_step, instPop_eq]
    cases hp : q.pop with
    | empty =>
      left
      rw [PrintQueue.pop_empty_iff] at hp
      have htl : q.toList = [] := by simp [PrintQueue.toList, hp]
      exact ⟨rfl, by rw [htl, flattenList_nil]⟩
    | panic => exact absurd hp (PrintQueue.pop_not_panic hwf)
    | elem e2 q2 =>
      have htl := PrintQueue.pop_elem_toList hp
      have hwf2 := PrintQueue.WF_pop hwf hp
      cases e2 with
      | interned es =>
        simp only [instExtend_eq]
        have hwfe := PrintQueue.WF_extend_back hwf2 es
        have htle := PrintQueue.toList_extend_back q2 es
        have hflat : flattenList q.toList = flattenList (q2.extend_back es).toList := by
          rw [htl, flattenList_cons_interned, htle, flattenList_append]
        have hsz : listSize q.toList = 1 + listSize es + listSize q2.toList := by
          rw [htl]
          simp [listSize, elemSize]
        have hsze : listSize (q2.extend_back es).toList = listSize es + listSize q2.toList := by
          rw [htle, listSize_append]
        have hnpos : 1 ≤ n := by omega
        have hrec := ih (n - 1) (by omega) (q2.extend_back es) (by omega) hwfe
        rcases hrec with ⟨hpr, hfl⟩ | ⟨e, q', hpr, hwf', hfl⟩
        · left
          exact ⟨hpr, by rw [hflat]; exact hfl⟩
        · right
          exact ⟨e, q', hpr, hwf', by rw [hflat]; exact hfl⟩
      | token w =>
        right
        exact ⟨.token w, q2, rfl, hwf2, by rw [htl, flattenList_cons_token]⟩
      | lineBreak =>
        right
        exact ⟨.lineBreak, q2, rfl, hwf2, by rw [htl, flattenList_cons_lineBreak]⟩
      | tag t =>
        right
        exact ⟨.tag t, q2, rfl, hwf2, by rw [htl, flattenList_cons_tag]⟩

theorem popResolving_flatten {q : PrintQueue} (hwf : q.WF) :
    (popResolving q = .empty ∧ flattenList q.toList = []) ∨
    (∃ e q', popResolving q = .elem e q' ∧ q'.WF ∧
      flattenList q.toList = e :: flattenList q'.toList) :=
  popResolving_flatten_aux (listSize q.toList) q (Nat.le_refl _) hwf

theorem popAllResolving_flatten_aux :
    ∀ (n : Nat) (q : PrintQueue), listSize q.toList ≤ n → q.WF →
      popAllResolving q = (flattenList q.toList, false) := by
  intro n
  induction n using Nat.strong_induction_on with
  | _ n ih =>
    intro q hn hwf
    rw [popAllResolving_step]
    rcases popResolving_flatten hwf with ⟨hpr, hfl⟩ | ⟨e, q', hpr, hwf', hfl⟩
    · simp only [hpr]
      rw [hfl]
    · simp only [hpr]
      have hsz : listSize q'.toList < listSize q.toList := by
        have := popResolving_elem_size hpr
        simpa [instSize_eq] using this
      have hrec := ih (listSize q'.toList) (by omega) q' (Nat.le_refl _) hwf'
      simp only [hrec]
      rw [hfl]

theorem popAllResolving_flatten {q : PrintQueue} (hwf : q.WF) :
    popAllResolving q = (flattenList q.toList, false) :=
  popAllResolving_flatten_aux (listSize q.toList) q (Nat.le_refl _) hwf

/-- Modelled from the spec: the fit-check driver of §4.3 (the printer main loop is not
among the provided sources).  Each element of the resolved stream is fed to the stopping
predicate and the width accumulator; "stop" before any violation means the content fits,
a token pushing the running width past the budget or a forced break before "stop" means
it does not, and exhaustion while under budget means it fits. -/
def fitsLoop {σ : Type} (step : σ → FormatElement → PrintResult (Bool × σ))
    (maxWidth : Nat) : σ → Nat → List FormatElement → PrintResult Bool
  | _, _, [] => .ok true
  | s, used, e :: rest =>
    match step s e with
    | .error err => .error err
    | .ok (true, _) => .ok true
    | .ok (false, s') =>
      match e with
      | .lineBreak => .ok false
      | .token w =>
        if maxWidth < used + w then .ok false
        else fitsLoop step maxWidth s' (used + w) rest
      | _ => fitsLoop step maxWidth s' used rest

/-- Modelled from the spec: the outcome of a fit check over a whole document, driven by
the fully resolved pop stream of a print queue built from that document. -/
def fitsCheckDoc {σ : Type} (step : σ → FormatElement → PrintResult (Bool × σ))
    (maxWidth : Nat) (s : σ) (doc : List FormatElement) : PrintResult Bool :=
  fitsLoop step maxWidth s 0 (popAllResolving (PrintQueue.new doc)).1

/-- The operations of the shared queue contract, as data, to quantify over arbitrary
operation sequences run against a fits queue. -/
inductive QueueOp where
  | pop
  | push (e : FormatElement)
  | extendBack (es : List FormatElement)
  | popSlice
  | iterContent (kind : TagKind)
  | skipContent (kind : TagKind)

/-- Apply one queue operation to a fits queue.  Every operation is a function of the fits
queue alone, mirroring the Rust borrows (`&mut self` on the `FitsQueue`, only a shared
borrow of the `PrintQueue` inside it).  A pop from an exhausted or corrupt queue leaves
the state as is (in Rust the former returns `None`, the latter unwinds; neither ever
writes to the print queue).  `iterContent` drives the content iterator to its end, like
`skipContent`. -/
def FitsQueue.applyOp (op : QueueOp) (q : FitsQueue) : FitsQueue :=
  match op with
  | .pop =>
    match q.pop with
    | .elem _ q' => q'
    | _ => q
  | .push e => q.push e
  | .extendBack es => q.extend_back es
  | .popSlice => (q.pop_slice).2
  | .iterContent kind => (iterAll (iter_content q kind)).2.2
  | .skipContent kind => skip_content q kind

/-- One step of a measurement session over the pair (print queue, fits queue): only the
fits-queue component advances. -/
def fitsSessionStep (op : QueueOp) (s : PrintQueue × FitsQueue) :
    PrintQueue × FitsQueue :=
  (s.1, s.2.applyOp op)

/-- Run a whole sequence of operations of a measurement session. -/
def runFitsSession (ops : List QueueOp) (s : PrintQueue × FitsQueue) :
    PrintQueue × FitsQueue :=
  match ops with
  | [] => s
  | op :: rest => runFitsSession rest (fitsSessionStep op s)

/-- Written from the spec, for refinement comparison with the code-derived
`popResolving`: "Each step pops from the underlying queue; if the popped element is an
interned reference, it is transparently re-expanded (pushed back as a slice) and the pop
retried." -/
def specExpandingPop {Q : Type} [QueueOps Q] (q : Q) : PopRes Q :=
  match h : QueueOps.pop q with
  | .elem (.interned es) q' => specExpandingPop (QueueOps.extend_back q' es)
  | r => r
termination_by QueueOps.size q
decreasing_by
  have h1 := QueueOps.pop_size h
  have h2 := QueueOps.extend_size q' es
  simp only [elemSize] at h1
  omega

theorem specExpandingPop_step {Q : Type} [QueueOps Q] (q : Q) :
    specExpandingPop q = match QueueOps.pop q with
      | .elem (.interned es) q' => specExpandingPop (QueueOps.extend_back q' es)
      | r => r := by
  rw [specExpandingPop]
  split
  · rename_i heq; rw [heq]
  · rename_i hne
    cases hp : QueueOps.pop q with
    | empty => rfl
    | panic => rfl
    | elem e q' =>
      cases e with
      | interned es => exact (hne es q' hp).elim
      | token w => rfl
      | lineBreak => rfl
      | tag t => rfl

theorem specExpandingPop_eq_popResolving_aux {Q : Type} [QueueOps Q] :
    ∀ (n : Nat) (q : Q), QueueOps.size q ≤ n → specExpandingPop q = popResolving q := by
  intro n
  induction n using Nat.strong_induction_on with
  | _ n ih =>
    intro q hn
    rw [specExpandingPop_step, popResolving_step]
    cases hp : QueueOps.pop q with
    | empty => simp only [hp]
    | panic => simp only [hp]
    | elem e q' =>
      cases e with
      | interned es =>
        simp only [hp]
        have h1 := QueueOps.pop_size hp
        have h2 := QueueOps.extend_size q' es
        simp only [elemSize] at h1
        exact ih (n - 1) (by omega) (QueueOps.extend_back q' es) (by omega)
      | token w => simp only [hp]
      | lineBreak => simp only [hp]
      | tag t => simp only [hp]

theorem specExpandingPop_eq_popResolving {Q : Type} [QueueOps Q] (q : Q) :
    specExpandingPop q = popResolving q :=
  specExpandingPop_eq_popResolving_aux (QueueOps.size q) q (Nat.le_refl _)

/-- Written from the spec, for refinement comparison with the code-derived
`QueueContentIterator.next` (§4.5): depth starts "already inside one open instance"; a
start tag of the target kind increments depth; an end tag decrements it and if depth
reaches zero the iterator ends without yielding this closing tag; popping past
exhaustion before depth returns to zero is the "missing end signal" violation; all other
elements are yielded unchanged. -/
def specContentNext {Q : Type} [QueueOps Q] (it : QueueContentIterator Q) :
    IterNextRes Q :=
  if it.depth = 0 then .done it
  else
    match specExpandingPop it.queue with
    | .empty => .panicked "Missing end signal."
    | .panic => .panicked "index out of bounds"
    | .elem (.tag t) q' =>
      if t.kind = it.kind then
        if t.is_start then .yield (.tag t) ⟨q', it.kind, it.depth + 1⟩
        else if it.depth = 1 then .done ⟨q', it.kind, 0⟩
        else .yield (.tag t) ⟨q', it.kind, it.depth - 1⟩
      else .yield (.tag t) ⟨q', it.kind, it.depth⟩
    | .elem e q' => .yield e ⟨q', it.kind, it.depth⟩

/-- Written from the spec, for refinement comparison with the code-derived `resolveTop`:
"recursively resolves to the first real element inside it (repeated until a non-interned
element or exhaustion)". -/
def specResolveFirst : FormatElement → Option FormatElement
  | .interned [] => none
  | .interned (e :: _) => specResolveFirst e
  | e => some e
termination_by e => elemSize e
decreasing_by
  simp only [elemSize, listSize]
  have := elemSize_pos e
  omega

/-- Written from the spec: `peek_resolved` as §4.1 phrases it — like `peek_raw`, but an
interned next element is recursively resolved to its first real element, `none` on
exhaustion, and the queue is untouched. -/
def peekResolvedSpec (q : PrintQueue) : Option FormatElement :=
  match q.top_with_interned with
  | none => none
  | some e => specResolveFirst e

theorem specResolveFirst_interned (es : List FormatElement) :
    specResolveFirst (.interned es) = match es with
      | [] => none
      | e :: _ => specResolveFirst e := by
  cases es with
  | nil => rw [specResolveFirst]
  | cons e r => rw [specResolveFirst]

theorem specResolveFirst_other {e : FormatElement} (h : ∀ es, e ≠ .interned es) :
    specResolveFirst e = some e := by
  cases e with
  | interned es => exact absurd rfl (h es)
  | token w => rw [specResolveFirst]; all_goals simp
  | lineBreak => rw [specResolveFirst]; all_goals simp
  | tag t => rw [specResolveFirst]; all_goals simp

theorem resolveTop_none : PrintQueue.resolveTop none = none := by
  rw [PrintQueue.resolveTop]
  all_goals simp

theorem resolveTop_interned (es : List FormatElement) :
    PrintQueue.resolveTop (some (.interned es)) = PrintQueue.resolveTop es.head? := by
  rw [PrintQueue.resolveTop]

theorem resolveTop_other {e : FormatElement} (h : ∀ es, e ≠ .interned es) :
    PrintQueue.resolveTop (some e) = some e := by
  cases e with
  | interned es => exact absurd rfl (h es)
  | token w => rw [PrintQueue.resolveTop]; all_goals simp
  | lineBreak => rw [PrintQueue.resolveTop]; all_goals simp
  | tag t => rw [PrintQueue.resolveTop]; all_goals simp

theorem resolveTop_eq_spec_aux :
    ∀ (n : Nat) (e : FormatElement), elemSize e ≤ n →
      PrintQueue.resolveTop (some e) = specResolveFirst e := by
  intro n
  induction n using Nat.strong_induction_on with
  | _ n ih =>
    intro e hn
    cases e with
    | interned es =>
      rw [resolveTop_interned, specResolveFirst_interned]
      cases es with
      | nil =>
        simp only [List.head?]
        rw [resolveTop_none]
      | cons e2 r =>
        simp only [List.head?]
        simp only [elemSize, listSize] at hn
        have h2 := elemSize_pos e2
        exact ih (n - 1) (by omega) e2 (by omega)
    | token w =>
      rw [resolveTop_other (by intro es h; cases h),
        specResolveFirst_other (by intro es h; cases h)]
    | lineBreak =>
      rw [resolveTop_other (by intro es h; cases h),
        specResolveFirst_other (by intro es h; cases h)]
    | tag t =>
      rw [resolveTop_other (by intro es h; cases h),
        specResolveFirst_other (by intro es h; cases h)]

theorem resolveTop_eq_spec (e : FormatElement) :
    PrintQueue.resolveTop (some e) = specResolveFirst e :=
  resolveTop_eq_spec_aux (elemSize e) e (Nat.le_refl _)

theorem next_eq_specContentNext {Q : Type} [QueueOps Q] (it : QueueContentIterator Q) :
    it.next = specContentNext it := by
  unfold QueueContentIterator.next specContentNext
  rw [specExpandingPop_eq_popResolving]
  split
  · rfl
  · rename_i hd
    cases hp : popResolving it.queue with
    | empty => simp only [hp]
    | panic => simp only [hp]
    | elem e q' =>
      cases e with
      | tag t =>
        simp only [hp]
        split
        · split
          · rfl
          · by_cases h1 : it.depth - 1 = 0
            · have h2 : it.depth = 1 := by omega
              rw [if_pos h1, if_pos h2, h1]
            · have h2 : ¬ it.depth = 1 := by omega
              rw [if_neg h1, if_neg h2]
        · rfl
      | token w => simp only [hp]
      | lineBreak => simp only [hp]
      | interned es => simp only [hp]

/-- C1: constructing a `FitsQueue` from a `PrintQueue` at state S and running any
sequence of queue operations (pop, push, extend_back, pop_slice, iter_content,
skip_content) on it leaves the `PrintQueue` unmodified: its subsequent pop sequence
equals the pop sequence it would have produced from S directly. -/
theorem fits_measurement_nondestructive (pq : PrintQueue)
    (saved : List (List FormatElement)) (ops : List QueueOp) :
    (runFitsSession ops (pq, FitsQueue.new pq saved)).1 = pq ∧
    (runFitsSession ops (pq, FitsQueue.new pq saved)).1.popAll = pq.popAll := by
  have key : ∀ (ops : List QueueOp) (s : PrintQueue × FitsQueue),
      (runFitsSession ops s).1 = s.1 := by
    intro ops
    induction ops with
    | nil => intro s; rfl
    | cons op rest ih =>
      intro s
      rw [runFitsSession]
      exact ih (fitsSessionStep op s)
  exact ⟨key ops _, by rw [key ops _]⟩

/-- Witness for C1 at a concrete print queue and operation sequence. -/
theorem fits_measurement_nondestructive_witness :
    (runFitsSession [QueueOp.pop, QueueOp.push (FormatElement.token 2)]
        (PrintQueue.new [FormatElement.token 1],
          FitsQueue.new (PrintQueue.new [FormatElement.token 1]) [])).1 =
      PrintQueue.new [FormatElement.token 1] :=
  (fits_measurement_nondestructive (PrintQueue.new [FormatElement.token 1]) []
    [QueueOp.pop, QueueOp.push (FormatElement.token 2)]).1

/-- C2: the content-scoped iterator starts with depth 1 over the given queue, and its
step behaviour coincides with the spec's description (pop with transparent re-expansion
of interned references; a start tag of the target kind increments depth and is yielded;
an end tag decrements depth and at zero ends the iteration without yielding the closing
tag; every other element is yielded unchanged). -/
theorem content_iterator_matches_spec {Q : Type} [QueueOps Q] (q : Q) (kind : TagKind)
    (it : QueueContentIterator Q) :
    (iter_content q kind).depth = 1 ∧ (iter_content q kind).queue = q ∧
      it.next = specContentNext it :=
  ⟨rfl, rfl, next_eq_specContentNext it⟩

/-- Witness for C2 at a concrete queue, kind and iterator state. -/
theorem content_iterator_matches_spec_witness :
    (iter_content (PrintQueue.new []) TagKind.Entry).depth = 1 ∧
    (iter_content (PrintQueue.new []) TagKind.Entry).queue = PrintQueue.new [] ∧
    (⟨PrintQueue.new [], TagKind.Entry, 1⟩ : QueueContentIterator PrintQueue).next =
      specContentNext ⟨PrintQueue.new [], TagKind.Entry, 1⟩ :=
  content_iterator_matches_spec (PrintQueue.new []) TagKind.Entry
    ⟨PrintQueue.new [], TagKind.Entry, 1⟩

/-- C3 (counterexample to the claim as stated): iterating the document `[EntryStart]`
with no closing tag to exhaustion ends in a Rust panic carrying only the message
"Missing end signal." — not an explicit `PrintResult` failure carrying the offending tag
kind. -/
theorem missing_end_signal_panics_cex :
    (iterAll (iter_content (PrintQueue.new [startEntry]) TagKind.Entry)).2.1 =
      IterEnd.panicked "Missing end signal." := by
  have hq1 : iter_content (PrintQueue.new [startEntry]) TagKind.Entry =
      ⟨⟨[[startEntry]], 0⟩, .Entry, 1⟩ := rfl
  have hpop1 : QueueOps.pop (⟨[[startEntry]], 0⟩ : PrintQueue) =
      .elem startEntry ⟨[], 0⟩ := rfl
  have hpr1 : popResolving (⟨[[startEntry]], 0⟩ : PrintQueue) =
      .elem startEntry ⟨[], 0⟩ := by
    rw [popResolving_step, hpop1]
    rfl
  have hpop2 : QueueOps.pop (⟨[], 0⟩ : PrintQueue) = .empty := rfl
  have hpr2 : popResolving (⟨[], 0⟩ : PrintQueue) = .empty := by
    rw [popResolving_step, hpop2]
  have hn1 : (⟨⟨[[startEntry]], 0⟩, .Entry, 1⟩ : QueueContentIterator PrintQueue).next =
      .yield startEntry ⟨⟨[], 0⟩, .Entry, 2⟩ := by
    unfold QueueContentIterator.next
    rw [hpr1]
    rfl
  have hn2 : (⟨⟨[], 0⟩, .Entry, 2⟩ : QueueContentIterator PrintQueue).next =
      .panicked "Missing end signal." := by
    unfold QueueContentIterator.next
    rw [hpr2]
    rfl
  rw [hq1, iterAll_step, hn1]
  dsimp only
  rw [iterAll_step, hn2]

/-- C3 (amended): when the queue is exhausted before the depth counter returns to zero,
the iterator reports the "missing end signal" condition by panicking with that exact
message (a Rust `expect`), carrying neither a failure result nor the tag kind. -/
theorem missing_end_signal_amended {Q : Type} [QueueOps Q]
    (it : QueueContentIterator Q) (hd : it.depth ≠ 0)
    (hq : popResolving it.queue = .empty) :
    it.next = .panicked "Missing end signal." := by
  unfold QueueContentIterator.next
  rw [if_neg hd, hq]

/-- Witness for the amended C3 at the concrete exhausted queue. -/
theorem missing_end_signal_amended_witness :
    (⟨PrintQueue.new [], TagKind.Entry, 1⟩ : QueueContentIterator PrintQueue).next =
      .panicked "Missing end signal." :=
  missing_end_signal_amended _ (by simp) (by rw [popResolving_step]; rfl)

/-- C4: on the element sequence `[EntryStart, Token, EndEntry]` the single-entry
predicate starting at depth 0 signals continue for the start tag and the token, signals
stop exactly at the entry end (transitioning to the terminal `Done` state), and once
`Done` every subsequent call signals stop for any element. -/
theorem single_entry_predicate_run :
    runIsEnd SingleEntryPredicate.default [startEntry, .token 1, endEntry] =
      .ok ([false, false, true], .Done) ∧
    ∀ e : FormatElement, SingleEntryPredicate.Done.is_end e = .ok (true, .Done) := by
  constructor
  · rfl
  · intro e
    rfl

/-- C5: at depth 0 an entry-end tag yields the invalid-end-tag failure; any element that
is neither an entry-start tag, an entry-end tag, nor an interned reference yields the
invalid-start-tag failure carrying that element; and interned references never count
toward depth and never trigger either error at any depth. -/
theorem single_entry_predicate_errors :
    (∀ (es : List FormatElement) (depth : Nat),
      (SingleEntryPredicate.Entry depth).is_end (.interned es) =
        .ok (false, .Entry depth)) ∧
    (SingleEntryPredicate.Entry 0).is_end endEntry =
      .error (.invalidEndTag .Entry none) ∧
    ∀ e : FormatElement, (∀ es, e ≠ .interned es) → e ≠ startEntry → e ≠ endEntry →
      (SingleEntryPredicate.Entry 0).is_end e =
        .error (.invalidStartTag .Entry (some e)) := by
  refine ⟨fun es depth => rfl, rfl, ?_⟩
  intro e h1 h2 h3
  cases e with
  | token w => rfl
  | lineBreak => rfl
  | interned es => exact absurd rfl (h1 es)
  | tag t =>
    rcases t with ⟨k, s⟩
    cases k <;> cases s <;>
      first
        | rfl
        | exact absurd rfl h2
        | exact absurd rfl h3

/-- Witness for C5 at the concrete element `Token 3`. -/
theorem single_entry_predicate_errors_witness :
    (SingleEntryPredicate.Entry 0).is_end (.token 3) =
      .error (.invalidStartTag .Entry (some (.token 3))) :=
  single_entry_predicate_errors.2.2 (.token 3) (by intro es h; cases h)
    (by intro h; cases h) (by intro h; cases h)

/-- C6: replacing a sub-sequence of a document with an interned reference to an equal
sub-sequence yields an identical resolved pop stream and identical fit-check outcomes
for every predicate, width budget and starting state. -/
theorem interning_transparency (pre mid post : List FormatElement) :
    popAllResolving (PrintQueue.new (pre ++ mid ++ post)) =
      popAllResolving (PrintQueue.new (pre ++ .interned mid :: post)) ∧
    ∀ {σ : Type} (step : σ → FormatElement → PrintResult (Bool × σ))
      (maxWidth : Nat) (s : σ),
      fitsCheckDoc step maxWidth s (pre ++ mid ++ post) =
        fitsCheckDoc step maxWidth s (pre ++ .interned mid :: post) := by
  have h1 : popAllResolving (PrintQueue.new (pre ++ mid ++ post)) =
      (flattenList (pre ++ mid ++ post), false) := by
    rw [popAllResolving_flatten (PrintQueue.WF_new _), PrintQueue.toList_new]
  have h2 : popAllResolving (PrintQueue.new (pre ++ .interned mid :: post)) =
      (flattenList (pre ++ .interned mid :: post), false) := by
    rw [popAllResolving_flatten (PrintQueue.WF_new _), PrintQueue.toList_new]
  have hfl : flattenList (pre ++ mid ++ post) =
      flattenList (pre ++ .interned mid :: post) := by
    simp [flattenList_append, flattenList_cons_interned]
  constructor
  · rw [h1, h2, hfl]
  · intro σ step maxWidth s
    unfold fitsCheckDoc
    rw [h1, h2, hfl]

/-- Witness for C4: the concrete run over the three-element entry. -/
theorem single_entry_predicate_run_witness :
    runIsEnd SingleEntryPredicate.default [startEntry, .token 1, endEntry] =
      .ok ([false, false, true], .Done) :=
  single_entry_predicate_run.1

/-- Witness for C6 at a concrete document split. -/
theorem interning_transparency_witness :
    popAllResolving (PrintQueue.new
        ([startEntry] ++ [FormatElement.token 2] ++ [endEntry])) =
      popAllResolving (PrintQueue.new
        ([startEntry] ++ .interned [FormatElement.token 2] :: [endEntry])) :=
  (interning_transparency [startEntry] [FormatElement.token 2] [endEntry]).1

/-- C7 (counterexample to the claim as stated): extending with the empty slice does not
reset the shared index — popping once from a two-token queue leaves the index at 1, and
`extend_back []` keeps it there. -/
theorem extend_back_empty_index_cex :
    ((⟨[[FormatElement.token 1, FormatElement.token 2]], 1⟩ : PrintQueue).extend_back
      []).next_index ≠ 0 := by
  decide

/-- C7 (amended): for a well-formed queue, after `extend_back s` the elements of `s` are
popped first, followed by exactly the pop sequence the queue would have produced
anyway; for non-empty `s` the shared index is reset to zero and the remainder of the
split top frame is re-pushed beneath `s`; for empty `s` the queue is unchanged. -/
theorem extend_back_prepends {q : PrintQueue} (hwf : q.WF) (s : List FormatElement) :
    (q.extend_back s).popAll = (s ++ (q.popAll).1, false) ∧
    (s ≠ [] → (q.extend_back s).next_index = 0) ∧
    (s = [] → q.extend_back s = q) ∧
    (∀ x xs top rest, s = x :: xs → q.slices = top :: rest →
      (q.extend_back s).slices = s :: top.drop q.next_index :: rest) := by
  refine ⟨?_, ?_, ?_, ?_⟩
  · rw [PrintQueue.popAll_eq_toList (PrintQueue.WF_extend_back hwf s),
      PrintQueue.toList_extend_back, PrintQueue.popAll_eq_toList hwf]
  · intro hne
    cases s with
    | nil => exact absurd rfl hne
    | cons x xs =>
      cases hs : q.slices with
      | nil => simp [PrintQueue.extend_back, hs]
      | cons top rest => simp [PrintQueue.extend_back, hs]
  · intro hnil
    subst hnil
    rfl
  · intro x xs top rest hsx hs
    subst hsx
    simp [PrintQueue.extend_back, hs]

/-- Witness for the amended C7 at a concrete mid-frame queue and slice. -/
theorem extend_back_prepends_witness :
    ((⟨[[FormatElement.token 1, FormatElement.token 2]], 1⟩ : PrintQueue).extend_back
        [FormatElement.token 5]).popAll =
      ([FormatElement.token 5] ++
        ((⟨[[FormatElement.token 1, FormatElement.token 2]], 1⟩ :
          PrintQueue).popAll).1, false) ∧
    ((⟨[[FormatElement.token 1, FormatElement.token 2]], 1⟩ : PrintQueue).extend_back
        [FormatElement.token 5]).next_index = 0 :=
  have hwf : (⟨[[FormatElement.token 1, FormatElement.token 2]], 1⟩ : PrintQueue).WF :=
    ⟨by intro s hs; simp at hs; simp [hs], by intro top rest h; simp at h; simp [← h.1]⟩
  ⟨(extend_back_prepends hwf [FormatElement.token 5]).1,
    (extend_back_prepends hwf [FormatElement.token 5]).2.1 (by simp)⟩

/-- C8: pushing an empty slice leaves any queue unchanged; a queue is empty exactly when
its frame count is zero; a print queue built from an empty root slice is empty
immediately; and on well-formed queues (no stored frame of remaining length zero) every
operation preserves well-formedness, making emptiness equivalent to having no remaining
elements. -/
theorem empty_slice_invariant :
    (∀ q : PrintQueue, q.extend_back [] = q) ∧
    (∀ q : PrintQueue, q.is_empty = true ↔ q.slices = []) ∧
    (PrintQueue.new []).is_empty = true ∧
    (∀ q : PrintQueue, q.WF →
      (∀ s, (q.extend_back s).WF) ∧
      (∀ e q', q.pop = .elem e q' → q'.WF) ∧
      (∀ e, (q.push e).WF) ∧
      (q.pop_slice).2.WF ∧
      (q.is_empty = true ↔ q.toList = [])) := by
  refine ⟨fun q => rfl, ?_, rfl, ?_⟩
  · intro q
    simp [PrintQueue.is_empty, List.isEmpty_iff]
  · intro q hwf
    refine ⟨fun s => PrintQueue.WF_extend_back hwf s,
      fun e q' h => PrintQueue.WF_pop hwf h,
      fun e => PrintQueue.WF_push hwf e,
      PrintQueue.WF_pop_slice hwf, ?_⟩
    cases hs : q.slices with
    | nil =>
      simp [PrintQueue.is_empty, PrintQueue.toList, hs]
    | cons top rest =>
      have hlt := hwf.2 top rest hs
      simp only [PrintQueue.is_empty, PrintQueue.toList, hs]
      constructor
      · intro h; cases h
      · intro h
        have hlen : (top.drop q.next_index).length = 0 := by
          have := congrArg List.length h
          simp at this
          omega
        rw [List.length_drop] at hlen
        omega

/-- Witness for C8 at a concrete well-formed queue. -/
theorem empty_slice_invariant_witness :
    ((PrintQueue.new [FormatElement.token 1]).is_empty = true ↔
      (PrintQueue.new [FormatElement.token 1]).toList = []) :=
  (empty_slice_invariant.2.2.2 (PrintQueue.new [FormatElement.token 1])
    (PrintQueue.WF_new _)).2.2.2.2

/-- C9: `top` (peek_resolved) returns the next element with interned references
recursively resolved to the first real element inside them, `none` when resolution
exhausts on an empty interned sequence or when the queue is empty — exactly as the
spec-side resolver describes, and without any mutation (it is a pure function of the
queue). -/
theorem top_resolves_interned (q : PrintQueue) :
    q.top = peekResolvedSpec q ∧ (q.slices = [] → q.top = none) := by
  constructor
  · unfold PrintQueue.top peekResolvedSpec
    cases ht : q.top_with_interned with
    | none => rw [resolveTop_none]
    | some e => rw [resolveTop_eq_spec]
  · intro hs
    unfold PrintQueue.top
    have ht : q.top_with_interned = none := by
      simp [PrintQueue.top_with_interned, hs]
    rw [ht, resolveTop_none]

/-- Witness for C9 at the empty print queue. -/
theorem top_resolves_interned_witness :
    (PrintQueue.new []).top = none :=
  (top_resolves_interned (PrintQueue.new [])).2 rfl

/-- C10: every queue state reachable through the public operations keeps all stored
slices non-empty and the shared index strictly inside the top slice, so the unchecked
indexing of `pop` and `top_with_interned` is in bounds: `pop` never panics and
`top_with_interned` is some whenever frames remain. -/
theorem reachable_index_in_bounds {q : PrintQueue} (h : Reachable q) :
    (∀ s ∈ q.slices, s ≠ []) ∧
    (∀ top rest, q.slices = top :: rest → q.next_index < top.length) ∧
    q.pop ≠ .panic ∧
    (q.slices ≠ [] → q.top_with_interned ≠ none) := by
  have hwf := h.wf
  refine ⟨hwf.1, hwf.2, PrintQueue.pop_not_panic hwf, ?_⟩
  intro hs
  cases hsl : q.slices with
  | nil => exact absurd hsl hs
  | cons top rest =>
    have hlt := hwf.2 top rest hsl
    simp [PrintQueue.top_with_interned, hsl, List.getElem?_eq_getElem hlt]

/-- Witness for C10 at the queue built from a one-token root slice. -/
theorem reachable_index_in_bounds_witness :
    (PrintQueue.new [FormatElement.token 1]).pop ≠ .panic :=
  (reachable_index_in_bounds (Reachable.new [FormatElement.token 1])).2.2.1
